import Mathlib

/-!
Verification of the crypto-configuration resolution and transparent
item-transformation layer of the AWS DynamoDB Encryption SDK for Python
(`dynamodb_encryption_sdk/encrypted/resource.py`).

The Python classes `EncryptedResource` and `EncryptedTablesCollectionManager`
are embedded shallowly:

* Python dictionaries become association lists (`alistGet`/`alistPut` mirror
  `d[k]` reads and `d[k] = v` writes).
* The mutable `AttributeActions` objects live in an explicit `Heap`; object
  identity is a `Ref` (index into the heap), so "never mutates the shared
  default" is the statement that the heap entry at the resource's default
  reference is unchanged.
* Side effects that the claims talk about (table-info cache lookups,
  per-table validation, the remote batch calls) are recorded in an explicit
  `Event` trace, and each operation returns its result, the final heap and
  the trace, in the order the Python statements execute.
* External collaborators that resource.py merely calls
  (`encrypt_python_item`, `decrypt_python_item`, `validate_get_arguments`,
  the underlying boto3 resource) are parameters of the embedded operations,
  exactly as the spec treats them (consumed interfaces).
* Repository code imported by resource.py but not part of the file under
  analysis (`AttributeActions.copy`/`set_index_keys`,
  `TableInfo.protected_index_keys`) is modelled from the spec; those
  definitions carry a `Modelled from the spec:` doc comment.
-/

/-- Per-attribute protection policy values of
`dynamodb_encryption_sdk.structures.AttributeActions` (spec §3:
ENCRYPT_AND_SIGN, SIGN_ONLY, DO_NOTHING; DO_NOTHING is the unprotected
action). -/
inductive CryptoAction where
  | encryptAndSign : CryptoAction
  | signOnly : CryptoAction
  | doNothing : CryptoAction
deriving DecidableEq, Repr

/-- Read a key from a Python dictionary modelled as an association list
(`d.get(k)` / `d[k]`). -/
def alistGet {α : Type} : List (String × α) → String → Option α
  | [], _ => none
  | (k, v) :: rest, name => if k = name then some v else alistGet rest name

/-- Write a key into a Python dictionary modelled as an association list
(`d[k] = v`): replaces the value of an existing key, appends otherwise. -/
def alistPut {α : Type} : List (String × α) → String → α → List (String × α)
  | [], name, v => [(name, v)]
  | (k, w) :: rest, name, v =>
      if k = name then (k, v) :: rest else (k, w) :: alistPut rest name v

/-- `dynamodb_encryption_sdk.structures.AttributeActions`: a default action
plus per-attribute overrides. -/
structure AttributeActions where
  default_action : CryptoAction
  attribute_actions : List (String × CryptoAction)
deriving DecidableEq, Repr

/-- The action assigned to one attribute name: the per-attribute entry if
present, the default otherwise. -/
def AttributeActions.action (a : AttributeActions) (name : String) : CryptoAction :=
  (alistGet a.attribute_actions name).getD a.default_action

/-- Modelled from the spec: `AttributeActions.copy()` — "Clone the default
`AttributeActions`"; returns a fresh object with the same contents (the
freshness is the allocation performed at the call site). -/
def AttributeActions.copy (a : AttributeActions) : AttributeActions :=
  { default_action := a.default_action, attribute_actions := a.attribute_actions }

/-- Modelled from the spec: `AttributeActions.set_index_keys(*keys)` —
"force every attribute returned by `TableInfo.protectedIndexKeys()` to the
unprotected action, overriding whatever the default specified for those
names". -/
def AttributeActions.set_index_keys (a : AttributeActions) (keys : List String) : AttributeActions :=
  { a with
    attribute_actions :=
      keys.foldl (fun acc k => alistPut acc k CryptoAction.doNothing) a.attribute_actions }

/-- Modelled from the spec: `dynamodb_encryption_sdk.structures.TableInfo` —
"per-table schema snapshot — primary key attribute name(s), optional
secondary index key attribute name(s), and derived encryption-context seed
values"; `protected_index_keys` returns the primary and secondary key
attribute names. -/
structure TableInfo where
  protected_index_keys : List String
  encryption_context_values : List (String × String)
deriving DecidableEq, Repr

instance decEqExcept {ε α : Type} [DecidableEq ε] [DecidableEq α] :
    DecidableEq (Except ε α) := fun a b =>
  match a, b with
  | Except.error e, Except.error e2 =>
      if h : e = e2 then Decidable.isTrue (congrArg Except.error h)
      else Decidable.isFalse (fun hc => h (Except.error.inj hc))
  | Except.error _, Except.ok _ => Decidable.isFalse (fun hc => Except.noConfusion hc)
  | Except.ok _, Except.error _ => Decidable.isFalse (fun hc => Except.noConfusion hc)
  | Except.ok v, Except.ok w =>
      if h : v = w then Decidable.isTrue (congrArg Except.ok h)
      else Decidable.isFalse (fun hc => h (Except.ok.inj hc))

/-- Errors surfaced by this layer (spec §7 taxonomy, plus Python's KeyError
for a malformed request dictionary). -/
inductive DynErr where
  | tableInfoUnavailable : String → DynErr
  | validationError : String → DynErr
  | encryptionError : String → DynErr
  | keyError : String → DynErr
  | attributeError : String → DynErr
deriving DecidableEq, Repr

/-- References to mutable `AttributeActions` objects: indices into the heap. -/
abbrev Ref := Nat

/-- The placeholder result of reading an unallocated heap cell; never reached
on valid references. -/
def emptyActions : AttributeActions :=
  { default_action := CryptoAction.encryptAndSign, attribute_actions := [] }

/-- The store of mutable `AttributeActions` objects; a Python object identity
is its index. -/
structure Heap where
  store : List AttributeActions
deriving DecidableEq, Repr

/-- Dereference. -/
def Heap.get (h : Heap) (r : Ref) : AttributeActions :=
  h.store.getD r emptyActions

/-- Allocate a new object (e.g. the result of `.copy()`), returning its
fresh reference. -/
def Heap.alloc (h : Heap) (a : AttributeActions) : Ref × Heap :=
  (h.store.length, ⟨h.store ++ [a]⟩)

/-- Overwrite the object a reference points to (in-place mutation such as
`set_index_keys`). -/
def Heap.set (h : Heap) (r : Ref) (a : AttributeActions) : Heap :=
  ⟨h.store.set r a⟩

/-- The fully resolved `dynamodb_encryption_sdk.encrypted.CryptoConfig`:
materials provider, encryption context (its values), attribute actions.
The materials provider is an opaque capability, modelled as a token. -/
structure CryptoConfig where
  materials_provider : Nat
  encryption_context : List (String × String)
  attribute_actions : AttributeActions
deriving DecidableEq, Repr

/-- A DynamoDB item: attribute name to (serialized) attribute value. -/
abbrev Item := List (String × String)

/-- The body of one write sub-request: a dictionary such as
`{'Item': item}` (for `PutRequest`) or `{'Key': key}` (for `DeleteRequest`). -/
abbrev RequestBody := List (String × Item)

/-- One per-item write request of a batch write: a dictionary from request
type (`'PutRequest'` / `'DeleteRequest'`) to its body. -/
abbrev WriteRequest := List (String × RequestBody)

/-- The per-table read spec of a batch get (keys to fetch plus options),
kept abstract as an option dictionary. -/
abbrev TableGetSpec := List (String × String)

instance decEqItem : DecidableEq Item := inferInstance

instance decEqRequestBody : DecidableEq RequestBody := inferInstance

instance decEqWriteRequest : DecidableEq WriteRequest := inferInstance

instance decEqWriteRequestList : DecidableEq (List WriteRequest) := inferInstance

instance decEqTableWrites : DecidableEq (List (String × List WriteRequest)) := inferInstance

instance decEqTableGets : DecidableEq (List (String × TableGetSpec)) := inferInstance

/-- The arguments `batch_get_item` forwards to the underlying resource:
everything the caller passed except the popped `crypto_config`. -/
structure BatchGetForward where
  RequestItems : List (String × TableGetSpec)
  other : List (String × String)
deriving DecidableEq, Repr

/-- The arguments `batch_write_item` forwards to the underlying resource:
the (transformed) `RequestItems` and everything else except the popped
`crypto_config`. -/
structure BatchWriteForward where
  RequestItems : List (String × List WriteRequest)
  other : List (String × String)
deriving DecidableEq, Repr

/-- Observable side effects of the layer, in execution order: a
`TableInfoCache.table_info` lookup, a `validate_get_arguments` call for one
table of a batch get, and the calls into the underlying boto3 resource. -/
inductive Event where
  | cacheLookup : String → Event
  | validateTable : String → Event
  | remoteBatchGet : BatchGetForward → Event
  | remoteBatchWrite : BatchWriteForward → Event
deriving DecidableEq, Repr

/-- The state of an `EncryptedResource`: the opaque materials provider, the
reference to the shared default `AttributeActions` object, the table-info
cache (`table_info(name)`, which may fail with `TableInfoUnavailable`), and
the auto-refresh flag. -/
structure EncryptedResource where
  materials_provider : Nat
  attribute_actions_ref : Ref
  table_info_cache : String → Except DynErr TableInfo
  auto_refresh_table_indexes : Bool

/-- `EncryptedResource._crypto_config(table_name)` (resource.py lines
161-177): look the table up in the cache, copy the default
`AttributeActions` (a fresh allocation), mutate the copy in place with
`set_index_keys(*table_info.protected_index_keys())`, and assemble the
`CryptoConfig`.  Returns the result, the heap after the call, and the trace
of cache lookups. -/
def EncryptedResource.crypto_config (env : EncryptedResource) (h : Heap) (table_name : String) :
    Except DynErr CryptoConfig × Heap × List Event :=
  match env.table_info_cache table_name with
  | Except.error e => (Except.error e, h, [Event.cacheLookup table_name])
  | Except.ok table_info =>
      let (r, h1) := h.alloc (h.get env.attribute_actions_ref).copy
      let h2 := h1.set r ((h1.get r).set_index_keys table_info.protected_index_keys)
      (Except.ok
        { materials_provider := env.materials_provider,
          encryption_context := table_info.encryption_context_values,
          attribute_actions := h2.get r },
        h2, [Event.cacheLookup table_name])

/-- The heap-free description of the config `_crypto_config` builds when the
shared default `AttributeActions` object holds `defaultAA`. -/
def resolvedConfig (env : EncryptedResource) (defaultAA : AttributeActions) (table_name : String) :
    Except DynErr CryptoConfig :=
  match env.table_info_cache table_name with
  | Except.error e => Except.error e
  | Except.ok table_info =>
      Except.ok
        { materials_provider := env.materials_provider,
          encryption_context := table_info.encryption_context_values,
          attribute_actions := defaultAA.copy.set_index_keys table_info.protected_index_keys }

/-- Resolve a `CryptoConfig` once for each table name in turn, threading the
heap (the repeated-resolution scenario of the frame claim). -/
def resolveMany (env : EncryptedResource) (h : Heap) : List String → Heap
  | [] => h
  | t :: ts => resolveMany env (env.crypto_config h t).2.1 ts

/-- Resolve the config to use for one table of a batch call: the caller's
override when present, `_crypto_config` otherwise (resource.py lines
190-194 and 210-214). -/
def useConfig (env : EncryptedResource) (h : Heap) (override : Option CryptoConfig)
    (table_name : String) : Except DynErr CryptoConfig × Heap × List Event :=
  match override with
  | some c => (Except.ok c, h, [])
  | none => env.crypto_config h table_name

/-- The eager validation loop of `batch_get_item` (resource.py lines
186-187): run `validate_get_arguments` on every per-table read spec, in
order, stopping at the first failure.  `validate` is the external
`validate_get_arguments`. -/
def validateAll (validate : TableGetSpec → Except DynErr Unit) :
    List (String × TableGetSpec) → Except DynErr Unit × List Event
  | [] => (Except.ok (), [])
  | (t, spec) :: rest =>
      match validate spec with
      | Except.error e => (Except.error e, [Event.validateTable t])
      | Except.ok _ =>
          ((validateAll validate rest).1,
            Event.validateTable t :: (validateAll validate rest).2)

instance decEqItemList : DecidableEq (List Item) := inferInstance

instance decEqResponses : DecidableEq (List (String × List Item)) := inferInstance

/-- The shape of a batch-get response: per-table item lists plus the
pass-through fields (unprocessed keys, consumed capacity). -/
structure BatchGetResponse where
  Responses : List (String × List Item)
  UnprocessedKeys : List (String × TableGetSpec)
  ConsumedCapacity : List String
deriving DecidableEq, Repr

/-- The arguments of `batch_get_item`, including the optional
`crypto_config` that is popped before forwarding. -/
structure BatchGetKwargs where
  RequestItems : List (String × TableGetSpec)
  other : List (String × String)
  crypto_config : Option CryptoConfig
deriving DecidableEq, Repr

/-- The batch-get loop over `response['Responses']` (resource.py lines
190-200): resolve a config per table (or take the override) and decrypt
every item in place, in order.  `decrypt` is `decrypt_python_item`. -/
def decryptTables (env : EncryptedResource) (decrypt : Item → CryptoConfig → Item)
    (override : Option CryptoConfig) (h : Heap) :
    List (String × List Item) → Except DynErr (List (String × List Item)) × Heap × List Event
  | [] => (Except.ok [], h, [])
  | (t, items) :: rest =>
      let u := useConfig env h override t
      match u.1 with
      | Except.error e => (Except.error e, u.2.1, u.2.2)
      | Except.ok cfg =>
          let r := decryptTables env decrypt override u.2.1 rest
          ((match r.1 with
            | Except.error e => Except.error e
            | Except.ok rest2 =>
                Except.ok ((t, items.map (fun it => decrypt it cfg)) :: rest2)),
            r.2.1, u.2.2 ++ r.2.2)

/-- `EncryptedResource.batch_get_item(**kwargs)` (resource.py lines
179-201): pop `crypto_config`, validate every per-table spec, call the
underlying `batch_get_item` with the remaining arguments, then decrypt each
returned item in place using the override or a per-table resolved config,
and return the response with everything else untouched.  `underlying` is
the boto3 resource's `batch_get_item`. -/
def EncryptedResource.batch_get_item (env : EncryptedResource) (h : Heap)
    (validate : TableGetSpec → Except DynErr Unit)
    (underlying : BatchGetForward → BatchGetResponse)
    (decrypt : Item → CryptoConfig → Item)
    (kw : BatchGetKwargs) :
    Except DynErr BatchGetResponse × Heap × List Event :=
  let request_crypto_config := kw.crypto_config
  let v := validateAll validate kw.RequestItems
  match v.1 with
  | Except.error e => (Except.error e, h, v.2)
  | Except.ok _ =>
      let fw : BatchGetForward := { RequestItems := kw.RequestItems, other := kw.other }
      let response := underlying fw
      let d := decryptTables env decrypt request_crypto_config h response.Responses
      ((match d.1 with
        | Except.error e => Except.error e
        | Except.ok resps => Except.ok { response with Responses := resps }),
        d.2.1, v.2 ++ Event.remoteBatchGet fw :: d.2.2)

/-- The loop over one write request's entries (resource.py lines 217-223):
entries tagged `'PutRequest'` get `body['Item']` replaced by
`encrypt_python_item(item['Item'], crypto_config)`; every other entry (in
particular `'DeleteRequest'`) is left untouched.  `encrypt` is
`encrypt_python_item`, which may fail. -/
def transformRequest (encrypt : Item → CryptoConfig → Except DynErr Item)
    (cfg : CryptoConfig) : WriteRequest → Except DynErr WriteRequest
  | [] => Except.ok []
  | (request_type, body) :: rest =>
      if request_type = "PutRequest" then
        match alistGet body "Item" with
        | none => Except.error (DynErr.keyError "Item")
        | some it =>
            match encrypt it cfg with
            | Except.error e => Except.error e
            | Except.ok enc =>
                match transformRequest encrypt cfg rest with
                | Except.error e => Except.error e
                | Except.ok rest2 =>
                    Except.ok ((request_type, alistPut body "Item" enc) :: rest2)
      else
        match transformRequest encrypt cfg rest with
        | Except.error e => Except.error e
        | Except.ok rest2 => Except.ok ((request_type, body) :: rest2)

/-- The loop over one table's write requests (resource.py lines 216-223). -/
def transformTableWrites (encrypt : Item → CryptoConfig → Except DynErr Item)
    (cfg : CryptoConfig) : List WriteRequest → Except DynErr (List WriteRequest)
  | [] => Except.ok []
  | req :: rest =>
      match transformRequest encrypt cfg req with
      | Except.error e => Except.error e
      | Except.ok req2 =>
          match transformTableWrites encrypt cfg rest with
          | Except.error e => Except.error e
          | Except.ok rest2 => Except.ok (req2 :: rest2)

/-- The outer loop of `batch_write_item` over `kwargs['RequestItems']`
(resource.py lines 210-223): resolve (or take the overriding) config per
table and encrypt all `PutRequest` items. -/
def encryptTables (env : EncryptedResource) (encrypt : Item → CryptoConfig → Except DynErr Item)
    (override : Option CryptoConfig) (h : Heap) :
    List (String × List WriteRequest) →
      Except DynErr (List (String × List WriteRequest)) × Heap × List Event
  | [] => (Except.ok [], h, [])
  | (t, reqs) :: rest =>
      let u := useConfig env h override t
      match u.1 with
      | Except.error e => (Except.error e, u.2.1, u.2.2)
      | Except.ok cfg =>
          match transformTableWrites encrypt cfg reqs with
          | Except.error e => (Except.error e, u.2.1, u.2.2)
          | Except.ok reqs2 =>
              let r := encryptTables env encrypt override u.2.1 rest
              ((match r.1 with
                | Except.error e => Except.error e
                | Except.ok rest2 => Except.ok ((t, reqs2) :: rest2)),
                r.2.1, u.2.2 ++ r.2.2)

/-- The response of the underlying `batch_write_item`, returned unmodified. -/
structure BatchWriteResponse where
  UnprocessedItems : List (String × List WriteRequest)
  ConsumedCapacity : List String
deriving DecidableEq, Repr

/-- The arguments of `batch_write_item`, including the optional
`crypto_config` that is popped before forwarding. -/
structure BatchWriteKwargs where
  RequestItems : List (String × List WriteRequest)
  other : List (String × String)
  crypto_config : Option CryptoConfig
deriving DecidableEq, Repr

/-- `EncryptedResource.batch_write_item(**kwargs)` (resource.py lines
203-224): pop `crypto_config`, encrypt every `PutRequest` item of every
table (resolving a config per table unless overridden), then — and only
then — call the underlying `batch_write_item` with the transformed
arguments, returning its response unmodified. -/
def EncryptedResource.batch_write_item (env : EncryptedResource) (h : Heap)
    (underlying : BatchWriteForward → BatchWriteResponse)
    (encrypt : Item → CryptoConfig → Except DynErr Item)
    (kw : BatchWriteKwargs) :
    Except DynErr BatchWriteResponse × Heap × List Event :=
  let request_crypto_config := kw.crypto_config
  let r := encryptTables env encrypt request_crypto_config h kw.RequestItems
  match r.1 with
  | Except.error e => (Except.error e, r.2.1, r.2.2)
  | Except.ok items2 =>
      let fw : BatchWriteForward := { RequestItems := items2, other := kw.other }
      (Except.ok (underlying fw), r.2.1, r.2.2 ++ [Event.remoteBatchWrite fw])

/-- The optional keyword arguments of `EncryptedResource.Table`
(resource.py lines 226-241): overrides for the resource defaults, plus the
documented (but unused) `table_info`. -/
structure TableKwargs where
  materials_provider : Option Nat
  attribute_actions : Option AttributeActions
  auto_refresh_table_indexes : Option Bool
  table_info : Option TableInfo
deriving DecidableEq, Repr

/-- The `EncryptedTable` facade as constructed by this file: the record of
constructor arguments (`encrypted/table.py` itself is out of scope). -/
structure EncryptedTable where
  table : String
  materials_provider : Nat
  attribute_actions : AttributeActions
  auto_refresh_table_indexes : Bool
  table_info : TableInfo
deriving DecidableEq, Repr

/-- `EncryptedResource.Table(name, **kwargs)` (resource.py lines 226-250):
build an `EncryptedTable` from the caller's overrides (falling back to the
resource's defaults), with `table_info` always fetched from the shared
table-info cache — the documented `table_info` keyword is never read. -/
def EncryptedResource.Table (env : EncryptedResource) (h : Heap) (name : String)
    (kw : TableKwargs) : Except DynErr EncryptedTable × List Event :=
  match env.table_info_cache name with
  | Except.error e => (Except.error e, [Event.cacheLookup name])
  | Except.ok ti =>
      (Except.ok
        { table := name,
          materials_provider := kw.materials_provider.getD env.materials_provider,
          attribute_actions := (kw.attribute_actions).getD (h.get env.attribute_actions_ref),
          auto_refresh_table_indexes :=
            kw.auto_refresh_table_indexes.getD env.auto_refresh_table_indexes,
          table_info := ti },
        [Event.cacheLookup name])

/-- One invocation of an underlying collection method, as recorded in the
call log: the method name and the keyword arguments forwarded verbatim. -/
structure CollectionCall where
  method : String
  kwargs : List (String × String)
deriving DecidableEq, Repr

/-- The state of an `EncryptedTablesCollectionManager` (resource.py lines
28-56): the underlying boto3 table collection (one enumeration per method
name and kwargs), the shared materials provider, attribute actions and
table-info cache. -/
structure EncryptedTablesCollectionManager where
  enumerate : String → List (String × String) → List String
  materials_provider : Nat
  attribute_actions : AttributeActions
  table_info_cache : String → Except DynErr TableInfo

/-- Wrap each table yielded by the underlying enumeration in an
`EncryptedTable` (body of `_transform_table`, resource.py lines 65-71); the
per-table cache lookup may fail, aborting the enumeration. -/
def wrapTables (mgr : EncryptedTablesCollectionManager) :
    List String → Except DynErr (List EncryptedTable)
  | [] => Except.ok []
  | t :: rest =>
      match mgr.table_info_cache t with
      | Except.error e => Except.error e
      | Except.ok ti =>
          match wrapTables mgr rest with
          | Except.error e => Except.error e
          | Except.ok rest2 =>
              Except.ok
                ({ table := t, materials_provider := mgr.materials_provider,
                   attribute_actions := mgr.attribute_actions,
                   auto_refresh_table_indexes := true, table_info := ti } :: rest2)

/-- A generator as returned by `_transform_table` (resource.py lines
58-71): nothing happens when it is created; forcing it invokes the
underlying collection method (appending to the call log) and yields the
wrapped tables in the order the underlying enumeration produced them. -/
def transform_table (mgr : EncryptedTablesCollectionManager) (method : String)
    (kwargs : List (String × String)) :
    List CollectionCall → Except DynErr (List EncryptedTable) × List CollectionCall :=
  fun log => (wrapTables mgr (mgr.enumerate method kwargs), log ++ [⟨method, kwargs⟩])

/-- `EncryptedTablesCollectionManager.all()` (resource.py lines 73-78). -/
def collection_all (mgr : EncryptedTablesCollectionManager) :
    List CollectionCall → Except DynErr (List EncryptedTable) × List CollectionCall :=
  transform_table mgr "all" []

/-- `EncryptedTablesCollectionManager.filter(**kwargs)` (lines 80-85). -/
def collection_filter (mgr : EncryptedTablesCollectionManager)
    (kwargs : List (String × String)) :
    List CollectionCall → Except DynErr (List EncryptedTable) × List CollectionCall :=
  transform_table mgr "filter" kwargs

/-- `EncryptedTablesCollectionManager.limit(**kwargs)` (lines 87-92). -/
def collection_limit (mgr : EncryptedTablesCollectionManager)
    (kwargs : List (String × String)) :
    List CollectionCall → Except DynErr (List EncryptedTable) × List CollectionCall :=
  transform_table mgr "limit" kwargs

/-- `EncryptedTablesCollectionManager.page_size(**kwargs)` (lines 94-100). -/
def collection_page_size (mgr : EncryptedTablesCollectionManager)
    (kwargs : List (String × String)) :
    List CollectionCall → Except DynErr (List EncryptedTable) × List CollectionCall :=
  transform_table mgr "page_size" kwargs

/-- Modelled from the spec and Python's attribute protocol: `__getattr__`
(resource.py lines 48-56 and 151-159) is consulted only when normal lookup
on the wrapper fails, and its body `getattr(wrapped, name)` raises
`AttributeError` when the wrapped object does not define the name either.
Attribute values are opaque tokens. -/
def delegated_getattr (own wrapped : String → Option Nat) (name : String) :
    Except DynErr Nat :=
  match own name with
  | some v => Except.ok v
  | none =>
      match wrapped name with
      | some v => Except.ok v
      | none => Except.error (DynErr.attributeError name)

-- Concrete fixtures used to evaluate the theorems at specific inputs

/-- Schema of the example table "Orders" (spec §8 scenario). -/
def tiOrders : TableInfo :=
  { protected_index_keys := ["OrderId"],
    encryption_context_values := [("table_name", "Orders")] }

/-- Schema of a second table with a composite key. -/
def tiAudit : TableInfo :=
  { protected_index_keys := ["AuditId", "Ts"],
    encryption_context_values := [("table_name", "Audit")] }

/-- A default policy that (absent the index-key fix-up) would ask for the
primary key to be encrypted. -/
def aaDefault : AttributeActions :=
  { default_action := CryptoAction.encryptAndSign,
    attribute_actions := [("OrderId", CryptoAction.encryptAndSign)] }

/-- A heap holding only the shared default actions object, at reference 0. -/
def h0 : Heap := { store := [aaDefault] }

/-- A concrete resource over a two-table cache. -/
def env0 : EncryptedResource :=
  { materials_provider := 7,
    attribute_actions_ref := 0,
    table_info_cache := fun t =>
      if t = "Orders" then Except.ok tiOrders
      else if t = "Audit" then Except.ok tiAudit
      else Except.error (DynErr.tableInfoUnavailable t),
    auto_refresh_table_indexes := true }

/-- A validator that rejects any spec carrying the marker option "bad". -/
def validate0 : TableGetSpec → Except DynErr Unit := fun spec =>
  match alistGet spec "bad" with
  | some _ => Except.error (DynErr.validationError "bad spec")
  | none => Except.ok ()

/-- An underlying batch-get returning one fixed response. -/
def underlyingGet0 : BatchGetForward → BatchGetResponse := fun _ =>
  { Responses :=
      [("Orders", [[("OrderId", "123"), ("Total", "42")], [("OrderId", "124")]]),
       ("Audit", [[("AuditId", "9")]])],
    UnprocessedKeys := [("Orders", [("Keys", "k")])],
    ConsumedCapacity := ["Orders"] }

/-- A concrete stand-in for `decrypt_python_item`. -/
def decrypt0 : Item → CryptoConfig → Item := fun it _ => ("decrypted", "yes") :: it

/-- A concrete stand-in for `encrypt_python_item` that always succeeds. -/
def encrypt0 : Item → CryptoConfig → Except DynErr Item := fun it _ =>
  Except.ok (("encrypted", "yes") :: it)

/-- A stand-in for `encrypt_python_item` that always fails. -/
def encryptBoom : Item → CryptoConfig → Except DynErr Item := fun _ _ =>
  Except.error (DynErr.encryptionError "boom")

/-- An underlying batch-write returning one fixed response. -/
def underlyingWrite0 : BatchWriteForward → BatchWriteResponse := fun _ =>
  { UnprocessedItems := [], ConsumedCapacity := ["Orders"] }

/-- A concrete collection manager over two tables. -/
def mgr0 : EncryptedTablesCollectionManager :=
  { enumerate := fun _ _ => ["Orders", "Audit"],
    materials_provider := 7,
    attribute_actions := aaDefault,
    table_info_cache := env0.table_info_cache }

/-- Concrete batch-write kwargs: one put and one delete for "Orders". -/
def kwWrite0 : BatchWriteKwargs :=
  { RequestItems :=
      [("Orders",
        [[("PutRequest", [("Item", [("OrderId", "123"), ("Total", "42")])])],
         [("DeleteRequest", [("Key", [("OrderId", "7")])])]])],
    other := [("ReturnConsumedCapacity", "TOTAL")],
    crypto_config := none }

/-- Concrete batch-get kwargs without an override. -/
def kwGet0 : BatchGetKwargs :=
  { RequestItems := [("Orders", [("ConsistentRead", "true")]), ("Audit", [])],
    other := [],
    crypto_config := none }

/-- Concrete batch-get kwargs whose first table spec fails validation. -/
def kwGetBad : BatchGetKwargs :=
  { RequestItems := [("Orders", [("bad", "1")]), ("Audit", [])],
    other := [],
    crypto_config := none }

/-- A caller-supplied override config. -/
def cfgOverride : CryptoConfig :=
  { materials_provider := 99, encryption_context := [("caller", "ctx")],
    attribute_actions := { default_action := CryptoAction.signOnly, attribute_actions := [] } }

/-- Table kwargs supplying every documented override, including the unused
`table_info`. -/
def kwTableAll : TableKwargs :=
  { materials_provider := some 5,
    attribute_actions := some { default_action := CryptoAction.doNothing, attribute_actions := [] },
    auto_refresh_table_indexes := some false,
    table_info := some tiAudit }

/-- The wrapped tables `mgr0`'s enumeration produces. -/
def tsAll0 : List EncryptedTable :=
  [{ table := "Orders", materials_provider := 7, attribute_actions := aaDefault,
     auto_refresh_table_indexes := true, table_info := tiOrders },
   { table := "Audit", materials_provider := 7, attribute_actions := aaDefault,
     auto_refresh_table_indexes := true, table_info := tiAudit }]

/-- The arguments `batch_write_item` forwards for `kwWrite0` under
`encrypt0`: the put item encrypted, the delete request untouched. -/
def fw0 : BatchWriteForward :=
  { RequestItems :=
      [("Orders",
        [[("PutRequest",
           [("Item", [("encrypted", "yes"), ("OrderId", "123"), ("Total", "42")])])],
         [("DeleteRequest", [("Key", [("OrderId", "7")])])]])],
    other := [("ReturnConsumedCapacity", "TOTAL")] }

/-- `kwGet0` with a caller-supplied override config. -/
def kwGetOv : BatchGetKwargs :=
  { RequestItems := [("Orders", [("ConsistentRead", "true")]), ("Audit", [])],
    other := [],
    crypto_config := some cfgOverride }

/-- `kwWrite0` with a caller-supplied override config. -/
def kwWriteOv : BatchWriteKwargs :=
  { RequestItems := kwWrite0.RequestItems,
    other := kwWrite0.other,
    crypto_config := some cfgOverride }

/-- The decrypted response for `underlyingGet0` under `decrypt0`. -/
def respDec0 : BatchGetResponse :=
  { Responses :=
      [("Orders",
        [[("decrypted", "yes"), ("OrderId", "123"), ("Total", "42")],
         [("decrypted", "yes"), ("OrderId", "124")]]),
       ("Audit", [[("decrypted", "yes"), ("AuditId", "9")]])],
    UnprocessedKeys := [("Orders", [("Keys", "k")])],
    ConsumedCapacity := ["Orders"] }

/-- Attributes defined directly on a wrapper, for the delegation claim. -/
def own0 : String → Option Nat := fun n => if n = "batch_get_item" then some 1 else none

/-- Attributes defined on the wrapped boto3 object. -/
def wrapped0 : String → Option Nat := fun n => if n = "scan" then some 2 else none

-- Association-list lemmas

theorem alistGet_put_self {α : Type} (l : List (String × α)) (k : String) (v : α) :
    alistGet (alistPut l k v) k = some v := by
  induction l with
  | nil => simp [alistGet, alistPut]
  | cons p rest ih =>
      by_cases hk : p.1 = k
      · simp [alistPut, hk, alistGet]
      · simp [alistPut, hk, alistGet, ih]

theorem alistGet_put_ne {α : Type} (l : List (String × α)) (k k2 : String) (v : α)
    (hne : k ≠ k2) : alistGet (alistPut l k v) k2 = alistGet l k2 := by
  induction l with
  | nil => simp [alistGet, alistPut, hne]
  | cons p rest ih =>
      by_cases hk : p.1 = k
      · simp [alistPut, hk, alistGet, hne]
      · simp [alistPut, hk, alistGet, ih]

theorem alistGet_foldl_put_of_not_mem {keys : List String} {k : String} {v : CryptoAction}
    (hk : k ∉ keys) :
    ∀ l : List (String × CryptoAction),
      alistGet (keys.foldl (fun acc k2 => alistPut acc k2 v) l) k = alistGet l k := by
  induction keys with
  | nil => intro l; rfl
  | cons r rest ih =>
      intro l
      have hr : r ≠ k := fun hc => hk (hc ▸ List.mem_cons_self r rest)
      have hrest : k ∉ rest := fun hm => hk (List.mem_cons_of_mem r hm)
      simp only [List.foldl_cons]
      rw [ih hrest (alistPut l r v), alistGet_put_ne l r k v hr]

theorem alistGet_foldl_put_of_mem {l : List (String × CryptoAction)} {keys : List String}
    {k : String} (hk : k ∈ keys) (v : CryptoAction) :
    alistGet (keys.foldl (fun acc k2 => alistPut acc k2 v) l) k = some v := by
  induction keys generalizing l with
  | nil => cases hk
  | cons k0 rest ih =>
      by_cases hmem : k ∈ rest
      · simp only [List.foldl_cons]
        exact ih hmem
      · have hk0 : k0 = k := by
          rcases List.mem_cons.mp hk with h | h
          · exact h.symm
          · exact absurd h hmem
        subst hk0
        simp only [List.foldl_cons]
        rw [alistGet_foldl_put_of_not_mem hmem (alistPut l k0 v)]
        exact alistGet_put_self l k0 v

-- Heap lemmas

theorem List.getD_append_lt {α : Type} (l l2 : List α) (d : α) (r : Nat)
    (hr : r < l.length) : (l ++ l2).getD r d = l.getD r d := by
  induction l generalizing r with
  | nil => cases hr
  | cons a rest ih =>
      cases r with
      | zero => rfl
      | succ n =>
          simp only [List.cons_append, List.getD_cons_succ]
          exact ih n (Nat.lt_of_succ_lt_succ hr)

theorem List.getD_append_self_length {α : Type} (l : List α) (a d : α) :
    (l ++ [a]).getD l.length d = a := by
  induction l with
  | nil => rfl
  | cons b rest ih =>
      simp only [List.cons_append, List.length_cons, List.getD_cons_succ]
      exact ih

theorem List.getD_set_ne {α : Type} (l : List α) (i r : Nat) (a d : α)
    (hne : i ≠ r) : (l.set i a).getD r d = l.getD r d := by
  induction l generalizing i r with
  | nil => rfl
  | cons b rest ih =>
      cases i with
      | zero =>
          cases r with
          | zero => exact absurd rfl hne
          | succ n => rfl
      | succ m =>
          cases r with
          | zero => rfl
          | succ n =>
              simp only [List.set_cons_succ, List.getD_cons_succ]
              exact ih m n (fun hc => hne (congrArg Nat.succ hc))

theorem List.getD_set_self {α : Type} (l : List α) (i : Nat) (a d : α)
    (hi : i < l.length) : (l.set i a).getD i d = a := by
  induction l generalizing i with
  | nil => cases hi
  | cons b rest ih =>
      cases i with
      | zero => rfl
      | succ m =>
          simp only [List.set_cons_succ, List.getD_cons_succ]
          exact ih m (Nat.lt_of_succ_lt_succ hi)

/-- One `_crypto_config` call: its result is `resolvedConfig` of the current
default-actions object, the default-actions heap cell is untouched, and the
heap only grows. -/
theorem crypto_config_heap (env : EncryptedResource) (h : Heap) (t : String)
    (href : env.attribute_actions_ref < h.store.length) :
    (env.crypto_config h t).1 = resolvedConfig env (h.get env.attribute_actions_ref) t ∧
    (env.crypto_config h t).2.1.get env.attribute_actions_ref = h.get env.attribute_actions_ref ∧
    h.store.length ≤ (env.crypto_config h t).2.1.store.length := by
  unfold EncryptedResource.crypto_config resolvedConfig
  cases hc : env.table_info_cache t with
  | error e => exact ⟨rfl, rfl, Nat.le_refl _⟩
  | ok ti =>
      simp only [Heap.alloc, Heap.set, Heap.get]
      have hlen : h.store.length <
          (h.store ++ [(h.store.getD env.attribute_actions_ref emptyActions).copy]).length := by
        simp
      refine ⟨?_, ?_, ?_⟩
      · rw [List.getD_set_self _ _ _ _ hlen, List.getD_append_self_length]
      · rw [List.getD_set_ne _ _ _ _ _ (Nat.ne_of_gt href),
          List.getD_append_lt _ _ _ _ href]
      · rw [List.length_set]
        simp

/-- After `set_index_keys`, every listed key is assigned the unprotected
action, whatever the previous contents said. -/
theorem action_set_index_keys_mem (a : AttributeActions) {keys : List String} {k : String}
    (hk : k ∈ keys) : (a.set_index_keys keys).action k = CryptoAction.doNothing := by
  unfold AttributeActions.set_index_keys AttributeActions.action
  simp only
  rw [alistGet_foldl_put_of_mem hk]
  rfl

/-- C1: resolving a `CryptoConfig` without a caller override
(`EncryptedResource._crypto_config`) assigns every attribute name returned
by the table's `protected_index_keys()` the unprotected action in the
resulting config, overriding whatever the resource's default
`AttributeActions` specified for those names. -/
theorem crypto_config_index_keys_unprotected (env : EncryptedResource) (h : Heap)
    (t : String) (ti : TableInfo) (hcache : env.table_info_cache t = Except.ok ti)
    (k : String) (hk : k ∈ ti.protected_index_keys) :
    ∃ cfg : CryptoConfig, (env.crypto_config h t).1 = Except.ok cfg ∧
      cfg.attribute_actions.action k = CryptoAction.doNothing := by
  unfold EncryptedResource.crypto_config
  simp only [hcache, Heap.alloc, Heap.set, Heap.get]
  refine ⟨_, rfl, ?_⟩
  rw [List.getD_set_self _ _ _ _ (by simp), List.getD_append_self_length]
  exact action_set_index_keys_mem _ hk

/-- Witness for C1: the "Orders" table's primary key "OrderId" comes out
unprotected even though the default policy marked it ENCRYPT_AND_SIGN. -/
theorem crypto_config_index_keys_unprotected_witness :
    ∃ cfg : CryptoConfig, (env0.crypto_config h0 "Orders").1 = Except.ok cfg ∧
      cfg.attribute_actions.action "OrderId" = CryptoAction.doNothing :=
  crypto_config_index_keys_unprotected env0 h0 "Orders" tiOrders rfl "OrderId" (by decide)

/-- C2: resolving a `CryptoConfig` any number of times (in particular twice
for the same table) never changes the shared default `AttributeActions`
object the resource holds; the index-key adjustment happens only on the
fresh copy. -/
theorem resolveMany_preserves_default (env : EncryptedResource) (h : Heap)
    (ts : List String) (href : env.attribute_actions_ref < h.store.length) :
    (resolveMany env h ts).get env.attribute_actions_ref = h.get env.attribute_actions_ref := by
  induction ts generalizing h with
  | nil => rfl
  | cons t rest ih =>
      obtain ⟨-, hpres, hlen⟩ := crypto_config_heap env h t href
      unfold resolveMany
      rw [ih _ (Nat.lt_of_lt_of_le href hlen), hpres]

/-- Witness for C2: resolving twice for "Orders" leaves the default
actions object at its reference bit-for-bit unchanged. -/
theorem resolveMany_preserves_default_witness :
    env0.attribute_actions_ref < h0.store.length ∧
    (resolveMany env0 h0 ["Orders", "Orders"]).get env0.attribute_actions_ref =
      h0.get env0.attribute_actions_ref :=
  ⟨by decide, resolveMany_preserves_default env0 h0 ["Orders", "Orders"] (by decide)⟩

/-- `_crypto_config` performs exactly one cache lookup. -/
theorem crypto_config_events (env : EncryptedResource) (h : Heap) (t : String) :
    (env.crypto_config h t).2.2 = [Event.cacheLookup t] := by
  unfold EncryptedResource.crypto_config
  cases env.table_info_cache t <;> rfl

/-- `useConfig` preserves the default-actions object and the heap length,
and the config it returns is the caller's override if one was given, the
per-table resolved config otherwise. -/
theorem useConfig_heap (env : EncryptedResource) (h : Heap) (override : Option CryptoConfig)
    (t : String) (href : env.attribute_actions_ref < h.store.length) :
    (useConfig env h override t).2.1.get env.attribute_actions_ref =
        h.get env.attribute_actions_ref ∧
    h.store.length ≤ (useConfig env h override t).2.1.store.length ∧
    ∀ cfg, (useConfig env h override t).1 = Except.ok cfg →
      override = some cfg ∨ (override = none ∧
        resolvedConfig env (h.get env.attribute_actions_ref) t = Except.ok cfg) := by
  cases override with
  | some c =>
      refine ⟨rfl, Nat.le_refl _, ?_⟩
      intro cfg hcfg
      simp only [useConfig] at hcfg
      cases hcfg
      exact Or.inl rfl
  | none =>
      obtain ⟨hres, hpres, hlen⟩ := crypto_config_heap env h t href
      refine ⟨hpres, hlen, ?_⟩
      intro cfg hcfg
      simp only [useConfig] at hcfg
      exact Or.inr ⟨rfl, by rw [← hres]; exact hcfg⟩

/-- `useConfig` emits only cache-lookup events (none at all on override). -/
theorem useConfig_events (env : EncryptedResource) (h : Heap) (override : Option CryptoConfig)
    (t : String) :
    ∀ ev ∈ (useConfig env h override t).2.2, ev = Event.cacheLookup t := by
  cases override with
  | some c => intro ev hev; cases hev
  | none =>
      intro ev hev
      have hevs : (useConfig env h none t).2.2 = [Event.cacheLookup t] :=
        crypto_config_events env h t
      rw [hevs] at hev
      simpa using hev

/-- With an override, `useConfig` is pure: no heap change, no events. -/
theorem useConfig_override (env : EncryptedResource) (h : Heap) (cfg : CryptoConfig)
    (t : String) :
    useConfig env h (some cfg) t = (Except.ok cfg, h, []) := rfl

/-- Every event `validateAll` emits is a per-table validation event. -/
theorem validateAll_events (validate : TableGetSpec → Except DynErr Unit) :
    ∀ reqs, ∀ ev ∈ (validateAll validate reqs).2, ∃ n, ev = Event.validateTable n := by
  intro reqs
  induction reqs with
  | nil => intro ev hev; cases hev
  | cons te rest ih =>
      obtain ⟨t, spec⟩ := te
      intro ev hev
      unfold validateAll at hev
      cases hv : validate spec with
      | error e =>
          rw [hv] at hev
          simp only [List.mem_singleton] at hev
          exact ⟨t, hev⟩
      | ok u =>
          rw [hv] at hev
          simp only [List.mem_cons] at hev
          rcases hev with hev | hev
          · exact ⟨t, hev⟩
          · exact ih ev hev

/-- When validation succeeds, its event list names every table of the
request, in order. -/
theorem validateAll_ok_events (validate : TableGetSpec → Except DynErr Unit) :
    ∀ reqs, (validateAll validate reqs).1 = Except.ok () →
      (validateAll validate reqs).2 = reqs.map (fun te => Event.validateTable te.1) := by
  intro reqs
  induction reqs with
  | nil => intro _; rfl
  | cons te rest ih =>
      obtain ⟨t, spec⟩ := te
      intro hok
      unfold validateAll at hok ⊢
      cases hv : validate spec with
      | error e =>
          rw [hv] at hok
          simp at hok
      | ok u =>
          rw [hv] at hok
          dsimp only at hok ⊢
          simp only [List.map_cons, List.cons.injEq]
          exact ⟨trivial, ih hok⟩

/-- On success, `decryptTables` keeps every table name and decrypts its
items positionally under that table's config: the override if one was
given, the per-table resolved config otherwise. -/
theorem decryptTables_spec (env : EncryptedResource) (decrypt : Item → CryptoConfig → Item)
    (override : Option CryptoConfig) (d : AttributeActions) :
    ∀ (resps : List (String × List Item)) (h : Heap),
      env.attribute_actions_ref < h.store.length →
      h.get env.attribute_actions_ref = d →
      ∀ out, (decryptTables env decrypt override h resps).1 = Except.ok out →
        List.Forall₂ (fun te te2 =>
          te2.1 = te.1 ∧ ∃ cfg,
            (override = some cfg ∨ (override = none ∧
              resolvedConfig env d te.1 = Except.ok cfg)) ∧
            te2.2 = te.2.map (fun it => decrypt it cfg)) resps out := by
  intro resps
  induction resps with
  | nil =>
      intro h _ _ out hout
      simp only [decryptTables, Except.ok.injEq] at hout
      subst hout
      exact List.Forall₂.nil
  | cons te rest ih =>
      obtain ⟨t, items⟩ := te
      intro h href hd out hout
      obtain ⟨hpres, hlen, hprov⟩ := useConfig_heap env h override t href
      simp only [decryptTables] at hout
      cases hu : (useConfig env h override t).1 with
      | error e =>
          rw [hu] at hout
          simp at hout
      | ok cfg =>
          rw [hu] at hout
          dsimp only at hout
          cases hr : (decryptTables env decrypt override
              (useConfig env h override t).2.1 rest).1 with
          | error e =>
              rw [hr] at hout
              simp at hout
          | ok rest2 =>
              rw [hr] at hout
              simp only [Except.ok.injEq] at hout
              subst hout
              refine List.Forall₂.cons ⟨rfl, cfg, hd ▸ hprov cfg hu, rfl⟩ ?_
              exact ih (useConfig env h override t).2.1
                (Nat.lt_of_lt_of_le href hlen) (by rw [hpres, hd]) rest2 hr

/-- With an override, `decryptTables` is pure: it decrypts everything with
exactly the supplied config, touches no heap cell and emits no event. -/
theorem decryptTables_override (env : EncryptedResource) (decrypt : Item → CryptoConfig → Item)
    (cfg : CryptoConfig) :
    ∀ (resps : List (String × List Item)) (h : Heap),
      decryptTables env decrypt (some cfg) h resps =
        (Except.ok (resps.map (fun te => (te.1, te.2.map (fun it => decrypt it cfg)))), h, []) := by
  intro resps
  induction resps with
  | nil => intro h; rfl
  | cons te rest ih =>
      obtain ⟨t, items⟩ := te
      intro h
      simp only [decryptTables, useConfig_override, ih h, List.map_cons, List.nil_append]

/-- On success, `transformRequest` preserves every entry tagged anything
other than `'PutRequest'` verbatim and replaces exactly the `'Item'` field
of `'PutRequest'` entries with the encrypted payload. -/
theorem transformRequest_spec (encrypt : Item → CryptoConfig → Except DynErr Item)
    (cfg : CryptoConfig) :
    ∀ req req2, transformRequest encrypt cfg req = Except.ok req2 →
      List.Forall₂ (fun e e2 =>
        e2.1 = e.1 ∧
        (e.1 ≠ "PutRequest" → e2 = e) ∧
        (e.1 = "PutRequest" → ∃ it enc,
          alistGet e.2 "Item" = some it ∧ encrypt it cfg = Except.ok enc ∧
          e2.2 = alistPut e.2 "Item" enc)) req req2 := by
  intro req
  induction req with
  | nil =>
      intro req2 h2
      simp only [transformRequest, Except.ok.injEq] at h2
      subst h2
      exact List.Forall₂.nil
  | cons entry rest ih =>
      obtain ⟨rt, body⟩ := entry
      intro req2 h2
      unfold transformRequest at h2
      by_cases hput : rt = "PutRequest"
      · rw [if_pos hput] at h2
        cases hit : alistGet body "Item" with
        | none => rw [hit] at h2; simp at h2
        | some it =>
            rw [hit] at h2
            dsimp only at h2
            cases henc : encrypt it cfg with
            | error e => rw [henc] at h2; simp at h2
            | ok enc =>
                rw [henc] at h2
                dsimp only at h2
                cases hrest : transformRequest encrypt cfg rest with
                | error e => rw [hrest] at h2; simp at h2
                | ok rest2 =>
                    rw [hrest] at h2
                    simp only [Except.ok.injEq] at h2
                    subst h2
                    refine List.Forall₂.cons ⟨rfl, ?_, ?_⟩ (ih rest2 hrest)
                    · intro hne; exact absurd hput hne
                    · intro _; exact ⟨it, enc, hit, henc, rfl⟩
      · rw [if_neg hput] at h2
        cases hrest : transformRequest encrypt cfg rest with
        | error e => rw [hrest] at h2; simp at h2
        | ok rest2 =>
            rw [hrest] at h2
            simp only [Except.ok.injEq] at h2
            subst h2
            exact List.Forall₂.cons
              ⟨rfl, fun _ => rfl, fun hp => absurd hp hput⟩ (ih rest2 hrest)

/-- On success, `transformTableWrites` transforms each request of the
table positionally via `transformRequest`. -/
theorem transformTableWrites_spec (encrypt : Item → CryptoConfig → Except DynErr Item)
    (cfg : CryptoConfig) :
    ∀ reqs reqs2, transformTableWrites encrypt cfg reqs = Except.ok reqs2 →
      List.Forall₂ (fun req req2 =>
        transformRequest encrypt cfg req = Except.ok req2) reqs reqs2 := by
  intro reqs
  induction reqs with
  | nil =>
      intro reqs2 h2
      simp only [transformTableWrites, Except.ok.injEq] at h2
      subst h2
      exact List.Forall₂.nil
  | cons req rest ih =>
      intro reqs2 h2
      unfold transformTableWrites at h2
      cases hreq : transformRequest encrypt cfg req with
      | error e => rw [hreq] at h2; simp at h2
      | ok req2 =>
          rw [hreq] at h2
          cases hrest : transformTableWrites encrypt cfg rest with
          | error e => rw [hrest] at h2; simp at h2
          | ok rest2 =>
              rw [hrest] at h2
              simp only [Except.ok.injEq] at h2
              subst h2
              exact List.Forall₂.cons hreq (ih rest2 hrest)

/-- On success, `encryptTables` keeps every table name and transforms its
write requests via `transformTableWrites` under that table's config: the
override if one was given, the per-table resolved config otherwise. -/
theorem encryptTables_spec (env : EncryptedResource)
    (encrypt : Item → CryptoConfig → Except DynErr Item)
    (override : Option CryptoConfig) (d : AttributeActions) :
    ∀ (reqs : List (String × List WriteRequest)) (h : Heap),
      env.attribute_actions_ref < h.store.length →
      h.get env.attribute_actions_ref = d →
      ∀ out, (encryptTables env encrypt override h reqs).1 = Except.ok out →
        List.Forall₂ (fun te te2 =>
          te2.1 = te.1 ∧ ∃ cfg,
            (override = some cfg ∨ (override = none ∧
              resolvedConfig env d te.1 = Except.ok cfg)) ∧
            transformTableWrites encrypt cfg te.2 = Except.ok te2.2) reqs out := by
  intro reqs
  induction reqs with
  | nil =>
      intro h _ _ out hout
      simp only [encryptTables, Except.ok.injEq] at hout
      subst hout
      exact List.Forall₂.nil
  | cons te rest ih =>
      obtain ⟨t, tw⟩ := te
      intro h href hd out hout
      obtain ⟨hpres, hlen, hprov⟩ := useConfig_heap env h override t href
      simp only [encryptTables] at hout
      cases hu : (useConfig env h override t).1 with
      | error e => rw [hu] at hout; simp at hout
      | ok cfg =>
          rw [hu] at hout
          dsimp only at hout
          cases ht : transformTableWrites encrypt cfg tw with
          | error e => rw [ht] at hout; simp at hout
          | ok reqs2 =>
              rw [ht] at hout
              dsimp only at hout
              cases hr : (encryptTables env encrypt override
                  (useConfig env h override t).2.1 rest).1 with
              | error e => rw [hr] at hout; simp at hout
              | ok rest2 =>
                  rw [hr] at hout
                  simp only [Except.ok.injEq] at hout
                  subst hout
                  refine List.Forall₂.cons ⟨rfl, cfg, hd ▸ hprov cfg hu, ht⟩ ?_
                  exact ih (useConfig env h override t).2.1
                    (Nat.lt_of_lt_of_le href hlen) (by rw [hpres, hd]) rest2 hr

/-- Every event `encryptTables` emits is a cache lookup: the encryption
phase of a batch write never talks to the underlying resource. -/
theorem encryptTables_events (env : EncryptedResource)
    (encrypt : Item → CryptoConfig → Except DynErr Item) (override : Option CryptoConfig) :
    ∀ reqs h, ∀ ev ∈ (encryptTables env encrypt override h reqs).2.2,
      ∃ n, ev = Event.cacheLookup n := by
  intro reqs
  induction reqs with
  | nil => intro h ev hev; cases hev
  | cons te rest ih =>
      obtain ⟨t, tw⟩ := te
      intro h ev hev
      simp only [encryptTables] at hev
      cases hu : (useConfig env h override t).1 with
      | error e =>
          rw [hu] at hev
          dsimp only at hev
          exact ⟨t, useConfig_events env h override t ev hev⟩
      | ok cfg =>
          rw [hu] at hev
          dsimp only at hev
          cases ht : transformTableWrites encrypt cfg tw with
          | error e =>
              rw [ht] at hev
              dsimp only at hev
              exact ⟨t, useConfig_events env h override t ev hev⟩
          | ok reqs2 =>
              rw [ht] at hev
              dsimp only at hev
              rcases List.mem_append.mp hev with hev | hev
              · exact ⟨t, useConfig_events env h override t ev hev⟩
              · exact ih (useConfig env h override t).2.1 ev hev

/-- With an override, `encryptTables` touches no heap cell and emits no
event. -/
theorem encryptTables_override_state (env : EncryptedResource)
    (encrypt : Item → CryptoConfig → Except DynErr Item) (cfg : CryptoConfig) :
    ∀ reqs h, (encryptTables env encrypt (some cfg) h reqs).2 = (h, []) := by
  intro reqs
  induction reqs with
  | nil => intro h; rfl
  | cons te rest ih =>
      obtain ⟨t, tw⟩ := te
      intro h
      simp only [encryptTables, useConfig_override]
      cases ht : transformTableWrites encrypt cfg tw with
      | error e => rfl
      | ok reqs2 =>
          dsimp only
          rw [show (encryptTables env encrypt (some cfg) h rest).2.1 = h from
              congrArg Prod.fst (ih h),
            show (encryptTables env encrypt (some cfg) h rest).2.2 = [] from
              congrArg Prod.snd (ih h)]
          rfl

/-- With an override, every table of a successful `encryptTables` run is
transformed with exactly the supplied config. -/
theorem encryptTables_override_ok (env : EncryptedResource)
    (encrypt : Item → CryptoConfig → Except DynErr Item) (cfg : CryptoConfig) :
    ∀ reqs h out, (encryptTables env encrypt (some cfg) h reqs).1 = Except.ok out →
      List.Forall₂ (fun te te2 => te2.1 = te.1 ∧
        transformTableWrites encrypt cfg te.2 = Except.ok te2.2) reqs out := by
  intro reqs
  induction reqs with
  | nil =>
      intro h out hout
      simp only [encryptTables, Except.ok.injEq] at hout
      subst hout
      exact List.Forall₂.nil
  | cons te rest ih =>
      obtain ⟨t, tw⟩ := te
      intro h out hout
      simp only [encryptTables, useConfig_override] at hout
      cases ht : transformTableWrites encrypt cfg tw with
      | error e => rw [ht] at hout; simp at hout
      | ok reqs2 =>
          rw [ht] at hout
          dsimp only at hout
          cases hr : (encryptTables env encrypt (some cfg) h rest).1 with
          | error e => rw [hr] at hout; simp at hout
          | ok rest2 =>
              rw [hr] at hout
              simp only [Except.ok.injEq] at hout
              subst hout
              exact List.Forall₂.cons ⟨rfl, ht⟩ (ih h rest2 hr)

/-- `wrapTables` succeeds exactly on the underlying tables, in order: the
wrapped list carries the same table names at the same positions. -/
theorem wrapTables_ok (mgr : EncryptedTablesCollectionManager) :
    ∀ ns ts, wrapTables mgr ns = Except.ok ts → ts.map EncryptedTable.table = ns := by
  intro ns
  induction ns with
  | nil =>
      intro ts hts
      simp only [wrapTables, Except.ok.injEq] at hts
      subst hts
      rfl
  | cons t rest ih =>
      intro ts hts
      unfold wrapTables at hts
      cases hc : mgr.table_info_cache t with
      | error e => rw [hc] at hts; simp at hts
      | ok ti =>
          rw [hc] at hts
          dsimp only at hts
          cases hr : wrapTables mgr rest with
          | error e => rw [hr] at hts; simp at hts
          | ok rest2 =>
              rw [hr] at hts
              simp only [Except.ok.injEq] at hts
              subst hts
              simp only [List.map_cons, List.cons.injEq]
              exact ⟨trivial, ih rest2 hr⟩

/-- C8: the collection wrapper's `all`/`filter`/`limit`/`page_size` return
lazily-forced enumerations; each forcing re-invokes the underlying
collection's corresponding method with the caller's kwargs forwarded
verbatim (a fresh log entry per call — two `all()` calls log two underlying
enumerations, never a cached replay), and a successful forcing yields
exactly the underlying tables, wrapped, in the same order and number. -/
theorem collection_methods_restartable (mgr : EncryptedTablesCollectionManager)
    (kwargs : List (String × String)) (log : List CollectionCall) :
    (collection_all mgr log).2 = log ++ [⟨"all", []⟩] ∧
    (collection_filter mgr kwargs log).2 = log ++ [⟨"filter", kwargs⟩] ∧
    (collection_limit mgr kwargs log).2 = log ++ [⟨"limit", kwargs⟩] ∧
    (collection_page_size mgr kwargs log).2 = log ++ [⟨"page_size", kwargs⟩] ∧
    (collection_all mgr ((collection_all mgr log).2)).2 =
      log ++ [⟨"all", []⟩, ⟨"all", []⟩] ∧
    ∀ method kw2 ts, (transform_table mgr method kw2 log).1 = Except.ok ts →
      ts.map EncryptedTable.table = mgr.enumerate method kw2 ∧
      ts.length = (mgr.enumerate method kw2).length := by
  refine ⟨rfl, rfl, rfl, rfl, ?_, ?_⟩
  · simp [collection_all, transform_table]
  · intro method kw2 ts hts
    have hmap := wrapTables_ok mgr (mgr.enumerate method kw2) ts hts
    refine ⟨hmap, ?_⟩
    rw [← hmap, List.length_map]

/-- Witness for C8: forcing two separate `all()` calls on `mgr0` logs two
underlying enumerations, and a forced enumeration wraps exactly the two
underlying tables in order. -/
theorem collection_methods_restartable_witness :
    (collection_all mgr0 ((collection_all mgr0 []).2)).2 =
      [] ++ [⟨"all", []⟩, ⟨"all", []⟩] ∧
    (tsAll0.map EncryptedTable.table = mgr0.enumerate "all" [] ∧
      tsAll0.length = (mgr0.enumerate "all" []).length) :=
  ⟨(collection_methods_restartable mgr0 [] []).2.2.2.2.1,
    (collection_methods_restartable mgr0 [] []).2.2.2.2.2 "all" [] tsAll0 rfl⟩

/-- C9: an attribute not defined on the wrapper class is looked up on the
wrapped object (`__getattr__` delegates via `getattr`); if the wrapped
object does not define it either, `AttributeError` is raised naming the
access — never swallowed or defaulted. -/
theorem getattr_delegates (own wrapped : String → Option Nat) (name : String)
    (hown : own name = none) :
    (∀ v, wrapped name = some v → delegated_getattr own wrapped name = Except.ok v) ∧
    (wrapped name = none →
      delegated_getattr own wrapped name = Except.error (DynErr.attributeError name)) := by
  unfold delegated_getattr
  rw [hown]
  constructor
  · intro v hv
    rw [hv]
  · intro hv
    rw [hv]

/-- Witness for C9: "scan" is not defined on the wrapper and resolves on
the wrapped resource; "missing" is defined on neither and raises. -/
theorem getattr_delegates_witness :
    delegated_getattr own0 wrapped0 "scan" = Except.ok 2 ∧
    delegated_getattr own0 wrapped0 "missing" =
      Except.error (DynErr.attributeError "missing") :=
  ⟨(getattr_delegates own0 wrapped0 "scan" rfl).1 2 rfl,
    (getattr_delegates own0 wrapped0 "missing" rfl).2 rfl⟩

/-- C10: `EncryptedResource.Table` always performs the table-info cache
lookup — even when every override is supplied the documented `table_info`
keyword is ignored — so a schema-lookup failure propagates regardless of
overrides, and a successful call always carries the cache's schema. -/
theorem Table_always_uses_cache (env : EncryptedResource) (h : Heap) (name : String)
    (kw : TableKwargs) :
    (env.Table h name kw).2 = [Event.cacheLookup name] ∧
    (∀ e, env.table_info_cache name = Except.error e →
      (env.Table h name kw).1 = Except.error e) ∧
    (∀ ti, env.table_info_cache name = Except.ok ti →
      ∃ et, (env.Table h name kw).1 = Except.ok et ∧ et.table_info = ti) := by
  unfold EncryptedResource.Table
  cases hc : env.table_info_cache name with
  | error e =>
      refine ⟨rfl, ?_, ?_⟩
      · intro e2 he2
        cases he2
        rfl
      · intro ti hti
        cases hti
  | ok ti =>
      refine ⟨rfl, ?_, ?_⟩
      · intro e2 he2
        cases he2
      · intro ti2 hti
        cases hti
        exact ⟨_, rfl, rfl⟩

/-- Witness for C10: with every override supplied (including a bogus
`table_info`), the facade for "Orders" still carries the cache's schema,
and the call for an unknown table still fails. -/
theorem Table_always_uses_cache_witness :
    (∃ et, (env0.Table h0 "Orders" kwTableAll).1 = Except.ok et ∧ et.table_info = tiOrders) ∧
    (env0.Table h0 "Nope" kwTableAll).1 =
      Except.error (DynErr.tableInfoUnavailable "Nope") :=
  ⟨(Table_always_uses_cache env0 h0 "Orders" kwTableAll).2.2 tiOrders rfl,
    (Table_always_uses_cache env0 h0 "Nope" kwTableAll).2.1
      (DynErr.tableInfoUnavailable "Nope") rfl⟩

/-- Every event `decryptTables` emits is a cache lookup. -/
theorem decryptTables_events (env : EncryptedResource)
    (decrypt : Item → CryptoConfig → Item) (override : Option CryptoConfig) :
    ∀ resps h, ∀ ev ∈ (decryptTables env decrypt override h resps).2.2,
      ∃ n, ev = Event.cacheLookup n := by
  intro resps
  induction resps with
  | nil => intro h ev hev; cases hev
  | cons te rest ih =>
      obtain ⟨t, items⟩ := te
      intro h ev hev
      simp only [decryptTables] at hev
      cases hu : (useConfig env h override t).1 with
      | error e =>
          rw [hu] at hev
          dsimp only at hev
          exact ⟨t, useConfig_events env h override t ev hev⟩
      | ok cfg =>
          rw [hu] at hev
          dsimp only at hev
          rcases List.mem_append.mp hev with hev | hev
          · exact ⟨t, useConfig_events env h override t ev hev⟩
          · exact ih (useConfig env h override t).2.1 ev hev

theorem getLast_append_singleton {α : Type} (l : List α) (a : α) :
    (l ++ [a]).getLast? = some a := by
  induction l with
  | nil => rfl
  | cons b rest ih =>
      rw [List.cons_append, List.getLast?_cons, ih]
      cases rest <;> rfl

/-- C5: `batch_get_item` validates every per-table read spec before the
underlying batch read is invoked: a validation failure propagates as the
call's result and no remote batch-read event is ever emitted, and whenever
the remote read does happen the trace opens with one validation event per
requested table, in request order, before the remote event. -/
theorem batch_get_item_validates_first (env : EncryptedResource) (h : Heap)
    (validate : TableGetSpec → Except DynErr Unit)
    (underlying : BatchGetForward → BatchGetResponse)
    (decrypt : Item → CryptoConfig → Item) (kw : BatchGetKwargs) :
    (∀ e, (validateAll validate kw.RequestItems).1 = Except.error e →
      (env.batch_get_item h validate underlying decrypt kw).1 = Except.error e ∧
      ∀ fw, Event.remoteBatchGet fw ∉
        (env.batch_get_item h validate underlying decrypt kw).2.2) ∧
    (∀ fw, Event.remoteBatchGet fw ∈
        (env.batch_get_item h validate underlying decrypt kw).2.2 →
      ∃ tail, (env.batch_get_item h validate underlying decrypt kw).2.2 =
        kw.RequestItems.map (fun te => Event.validateTable te.1) ++
          Event.remoteBatchGet fw :: tail) := by
  constructor
  · intro e he
    have h1 : (env.batch_get_item h validate underlying decrypt kw).1 = Except.error e := by
      simp only [EncryptedResource.batch_get_item, he]
    have h2 : (env.batch_get_item h validate underlying decrypt kw).2.2 =
        (validateAll validate kw.RequestItems).2 := by
      simp only [EncryptedResource.batch_get_item, he]
    refine ⟨h1, ?_⟩
    intro fw hmem
    rw [h2] at hmem
    obtain ⟨n, hn⟩ := validateAll_events validate kw.RequestItems _ hmem
    cases hn
  · intro fw hmem
    cases hv : (validateAll validate kw.RequestItems).1 with
    | error e =>
        exfalso
        have h2 : (env.batch_get_item h validate underlying decrypt kw).2.2 =
            (validateAll validate kw.RequestItems).2 := by
          simp only [EncryptedResource.batch_get_item, hv]
        rw [h2] at hmem
        obtain ⟨n, hn⟩ := validateAll_events validate kw.RequestItems _ hmem
        cases hn
    | ok u =>
        cases u
        have h2 : (env.batch_get_item h validate underlying decrypt kw).2.2 =
            (validateAll validate kw.RequestItems).2 ++
              Event.remoteBatchGet ⟨kw.RequestItems, kw.other⟩ ::
                (decryptTables env decrypt kw.crypto_config h
                  (underlying ⟨kw.RequestItems, kw.other⟩).Responses).2.2 := by
          simp only [EncryptedResource.batch_get_item, hv]
        rw [h2] at hmem
        rcases List.mem_append.mp hmem with hmem | hmem
        · exfalso
          obtain ⟨n, hn⟩ := validateAll_events validate kw.RequestItems _ hmem
          cases hn
        · rcases List.mem_cons.mp hmem with hfw | hmem
          · have hfw2 : fw = ⟨kw.RequestItems, kw.other⟩ := by
              injection hfw
            subst hfw2
            refine ⟨(decryptTables env decrypt kw.crypto_config h
                (underlying ⟨kw.RequestItems, kw.other⟩).Responses).2.2, ?_⟩
            rw [h2, validateAll_ok_events validate kw.RequestItems hv]
          · exfalso
            obtain ⟨n, hn⟩ := decryptTables_events env decrypt kw.crypto_config
              (underlying ⟨kw.RequestItems, kw.other⟩).Responses h _ hmem
            cases hn

/-- Witness for C5: a request whose first table spec fails validation
makes the whole call fail with that error and never reaches the remote
read, while a valid request's trace opens with both validation events
before the remote read. -/
theorem batch_get_item_validates_first_witness :
    ((env0.batch_get_item h0 validate0 underlyingGet0 decrypt0 kwGetBad).1 =
        Except.error (DynErr.validationError "bad spec") ∧
      Event.remoteBatchGet ⟨kwGetBad.RequestItems, kwGetBad.other⟩ ∉
        (env0.batch_get_item h0 validate0 underlyingGet0 decrypt0 kwGetBad).2.2) ∧
    (∃ tail, (env0.batch_get_item h0 validate0 underlyingGet0 decrypt0 kwGet0).2.2 =
      kwGet0.RequestItems.map (fun te => Event.validateTable te.1) ++
        Event.remoteBatchGet ⟨kwGet0.RequestItems, kwGet0.other⟩ :: tail) :=
  ⟨⟨((batch_get_item_validates_first env0 h0 validate0 underlyingGet0 decrypt0
        kwGetBad).1 (DynErr.validationError "bad spec") rfl).1,
    ((batch_get_item_validates_first env0 h0 validate0 underlyingGet0 decrypt0
        kwGetBad).1 (DynErr.validationError "bad spec") rfl).2
      ⟨kwGetBad.RequestItems, kwGetBad.other⟩⟩,
    (batch_get_item_validates_first env0 h0 validate0 underlyingGet0 decrypt0
        kwGet0).2 ⟨kwGet0.RequestItems, kwGet0.other⟩ (by decide)⟩

/-- C6: on a successful `batch_get_item`, every table of the underlying
response keeps its item count and order, each item at position `i` being
`decrypt_python_item` of the raw item at position `i` under that table's
config (the caller's override, else the table's resolved config), while
unprocessed keys, consumed capacity and the rest of the response pass
through unchanged. -/
theorem batch_get_item_decrypts (env : EncryptedResource) (h : Heap)
    (validate : TableGetSpec → Except DynErr Unit)
    (underlying : BatchGetForward → BatchGetResponse)
    (decrypt : Item → CryptoConfig → Item) (kw : BatchGetKwargs) (resp : BatchGetResponse)
    (href : env.attribute_actions_ref < h.store.length)
    (hok : (env.batch_get_item h validate underlying decrypt kw).1 = Except.ok resp) :
    resp.UnprocessedKeys = (underlying ⟨kw.RequestItems, kw.other⟩).UnprocessedKeys ∧
    resp.ConsumedCapacity = (underlying ⟨kw.RequestItems, kw.other⟩).ConsumedCapacity ∧
    List.Forall₂ (fun te te2 => te2.1 = te.1 ∧ ∃ cfg,
        (kw.crypto_config = some cfg ∨ (kw.crypto_config = none ∧
          resolvedConfig env (h.get env.attribute_actions_ref) te.1 = Except.ok cfg)) ∧
        te2.2 = te.2.map (fun it => decrypt it cfg))
      (underlying ⟨kw.RequestItems, kw.other⟩).Responses resp.Responses := by
  unfold EncryptedResource.batch_get_item at hok
  dsimp only at hok
  cases hv : (validateAll validate kw.RequestItems).1 with
  | error e => rw [hv] at hok; simp at hok
  | ok u =>
      rw [hv] at hok
      dsimp only at hok
      cases hd : (decryptTables env decrypt kw.crypto_config h
          (underlying ⟨kw.RequestItems, kw.other⟩).Responses).1 with
      | error e => rw [hd] at hok; simp at hok
      | ok resps =>
          rw [hd] at hok
          simp only [Except.ok.injEq] at hok
          subst hok
          exact ⟨rfl, rfl,
            decryptTables_spec env decrypt kw.crypto_config
              (h.get env.attribute_actions_ref)
              (underlying ⟨kw.RequestItems, kw.other⟩).Responses h href rfl resps hd⟩

/-- Witness for C6: the concrete batch get decrypts two items for "Orders"
and one for "Audit" and passes the unprocessed keys through. -/
theorem batch_get_item_decrypts_witness :
    respDec0.UnprocessedKeys =
      (underlyingGet0 ⟨kwGet0.RequestItems, kwGet0.other⟩).UnprocessedKeys ∧
    respDec0.ConsumedCapacity =
      (underlyingGet0 ⟨kwGet0.RequestItems, kwGet0.other⟩).ConsumedCapacity :=
  ⟨(batch_get_item_decrypts env0 h0 validate0 underlyingGet0 decrypt0 kwGet0 respDec0
      (by decide) (by decide)).1,
    (batch_get_item_decrypts env0 h0 validate0 underlyingGet0 decrypt0 kwGet0 respDec0
      (by decide) (by decide)).2.1⟩

/-- C7: `batch_write_item` completes the encryption transform for the
whole batch before any network call: if the transform fails for any item,
that error is the call's result and no remote batch-write event is ever
emitted; conversely any remote batch-write event is the final event of the
trace and its payload is exactly what the successful result came from. -/
theorem batch_write_no_partial_submission (env : EncryptedResource) (h : Heap)
    (underlying : BatchWriteForward → BatchWriteResponse)
    (encrypt : Item → CryptoConfig → Except DynErr Item) (kw : BatchWriteKwargs) :
    (∀ e, (encryptTables env encrypt kw.crypto_config h kw.RequestItems).1 =
        Except.error e →
      (env.batch_write_item h underlying encrypt kw).1 = Except.error e ∧
      ∀ fw, Event.remoteBatchWrite fw ∉
        (env.batch_write_item h underlying encrypt kw).2.2) ∧
    (∀ fw, Event.remoteBatchWrite fw ∈
        (env.batch_write_item h underlying encrypt kw).2.2 →
      (env.batch_write_item h underlying encrypt kw).1 = Except.ok (underlying fw) ∧
      (env.batch_write_item h underlying encrypt kw).2.2.getLast? =
        some (Event.remoteBatchWrite fw)) := by
  constructor
  · intro e he
    have h1 : (env.batch_write_item h underlying encrypt kw).1 = Except.error e := by
      simp only [EncryptedResource.batch_write_item, he]
    have h2 : (env.batch_write_item h underlying encrypt kw).2.2 =
        (encryptTables env encrypt kw.crypto_config h kw.RequestItems).2.2 := by
      simp only [EncryptedResource.batch_write_item, he]
    refine ⟨h1, ?_⟩
    intro fw hmem
    rw [h2] at hmem
    obtain ⟨n, hn⟩ := encryptTables_events env encrypt kw.crypto_config
      kw.RequestItems h _ hmem
    cases hn
  · intro fw hmem
    cases hr : (encryptTables env encrypt kw.crypto_config h kw.RequestItems).1 with
    | error e =>
        exfalso
        have h2 : (env.batch_write_item h underlying encrypt kw).2.2 =
            (encryptTables env encrypt kw.crypto_config h kw.RequestItems).2.2 := by
          simp only [EncryptedResource.batch_write_item, hr]
        rw [h2] at hmem
        obtain ⟨n, hn⟩ := encryptTables_events env encrypt kw.crypto_config
          kw.RequestItems h _ hmem
        cases hn
    | ok items2 =>
        have h2 : (env.batch_write_item h underlying encrypt kw).2.2 =
            (encryptTables env encrypt kw.crypto_config h kw.RequestItems).2.2 ++
              [Event.remoteBatchWrite ⟨items2, kw.other⟩] := by
          simp only [EncryptedResource.batch_write_item, hr]
        rw [h2] at hmem
        rcases List.mem_append.mp hmem with hmem | hmem
        · exfalso
          obtain ⟨n, hn⟩ := encryptTables_events env encrypt kw.crypto_config
            kw.RequestItems h _ hmem
          cases hn
        · have hfw2 : fw = ⟨items2, kw.other⟩ := by
            have := List.mem_singleton.mp hmem
            injection this
          subst hfw2
          constructor
          · simp only [EncryptedResource.batch_write_item, hr]
          · rw [h2]
            exact getLast_append_singleton _ _

/-- Witness for C7: with a failing encryptor the whole call fails and the
trace has no remote write; with a working encryptor the remote write is
the trace's final event and carries the transformed batch. -/
theorem batch_write_no_partial_submission_witness :
    ((env0.batch_write_item h0 underlyingWrite0 encryptBoom kwWrite0).1 =
        Except.error (DynErr.encryptionError "boom") ∧
      Event.remoteBatchWrite fw0 ∉
        (env0.batch_write_item h0 underlyingWrite0 encryptBoom kwWrite0).2.2) ∧
    ((env0.batch_write_item h0 underlyingWrite0 encrypt0 kwWrite0).1 =
        Except.ok (underlyingWrite0 fw0) ∧
      (env0.batch_write_item h0 underlyingWrite0 encrypt0 kwWrite0).2.2.getLast? =
        some (Event.remoteBatchWrite fw0)) :=
  ⟨⟨((batch_write_no_partial_submission env0 h0 underlyingWrite0 encryptBoom kwWrite0).1
        (DynErr.encryptionError "boom") (by decide)).1,
      ((batch_write_no_partial_submission env0 h0 underlyingWrite0 encryptBoom kwWrite0).1
        (DynErr.encryptionError "boom") (by decide)).2 fw0⟩,
    (batch_write_no_partial_submission env0 h0 underlyingWrite0 encrypt0 kwWrite0).2
      fw0 (by decide)⟩

/-- C3: whatever `batch_write_item` forwards to the underlying client keeps
the caller's non-crypto arguments and, per table (in order), transforms the
request list positionally: an entry tagged anything other than
`'PutRequest'` (in particular a delete) is forwarded byte-for-byte
unchanged, while a `'PutRequest'` entry has exactly its `'Item'` payload
replaced by `encrypt_python_item` of the original payload under that
table's resolved (or caller-overridden) config, every other field of its
body untouched. -/
theorem batch_write_item_put_delete (env : EncryptedResource) (h : Heap)
    (underlying : BatchWriteForward → BatchWriteResponse)
    (encrypt : Item → CryptoConfig → Except DynErr Item) (kw : BatchWriteKwargs)
    (fw : BatchWriteForward)
    (href : env.attribute_actions_ref < h.store.length)
    (hfw : Event.remoteBatchWrite fw ∈
      (env.batch_write_item h underlying encrypt kw).2.2) :
    fw.other = kw.other ∧
    List.Forall₂ (fun te te2 => te2.1 = te.1 ∧ ∃ cfg,
      (kw.crypto_config = some cfg ∨ (kw.crypto_config = none ∧
        resolvedConfig env (h.get env.attribute_actions_ref) te.1 = Except.ok cfg)) ∧
      List.Forall₂ (fun req req2 => List.Forall₂ (fun en en2 =>
        en2.1 = en.1 ∧
        (en.1 ≠ "PutRequest" → en2 = en) ∧
        (en.1 = "PutRequest" → ∃ it enc,
          alistGet en.2 "Item" = some it ∧ encrypt it cfg = Except.ok enc ∧
          en2.2 = alistPut en.2 "Item" enc ∧
          alistGet en2.2 "Item" = some enc ∧
          ∀ f, f ≠ "Item" → alistGet en2.2 f = alistGet en.2 f)) req req2)
        te.2 te2.2)
      kw.RequestItems fw.RequestItems := by
  cases hr : (encryptTables env encrypt kw.crypto_config h kw.RequestItems).1 with
  | error e =>
      exfalso
      have h2 : (env.batch_write_item h underlying encrypt kw).2.2 =
          (encryptTables env encrypt kw.crypto_config h kw.RequestItems).2.2 := by
        simp only [EncryptedResource.batch_write_item, hr]
      rw [h2] at hfw
      obtain ⟨n, hn⟩ := encryptTables_events env encrypt kw.crypto_config
        kw.RequestItems h _ hfw
      cases hn
  | ok items2 =>
      have h2 : (env.batch_write_item h underlying encrypt kw).2.2 =
          (encryptTables env encrypt kw.crypto_config h kw.RequestItems).2.2 ++
            [Event.remoteBatchWrite ⟨items2, kw.other⟩] := by
        simp only [EncryptedResource.batch_write_item, hr]
      rw [h2] at hfw
      rcases List.mem_append.mp hfw with hfw | hfw
      · exfalso
        obtain ⟨n, hn⟩ := encryptTables_events env encrypt kw.crypto_config
          kw.RequestItems h _ hfw
        cases hn
      · have hfw2 : fw = ⟨items2, kw.other⟩ := by
          have := List.mem_singleton.mp hfw
          injection this
        subst hfw2
        refine ⟨rfl, ?_⟩
        have hspec := encryptTables_spec env encrypt kw.crypto_config
          (h.get env.attribute_actions_ref) kw.RequestItems h href rfl items2 hr
        refine hspec.imp ?_
        intro te te2 hrel
        obtain ⟨h1, cfg, hcfg, htw⟩ := hrel
        refine ⟨h1, cfg, hcfg, ?_⟩
        have hreqs := transformTableWrites_spec encrypt cfg te.2 te2.2 htw
        refine hreqs.imp ?_
        intro req req2 hreq
        have hentries := transformRequest_spec encrypt cfg req req2 hreq
        refine hentries.imp ?_
        intro en en2 hen
        obtain ⟨he1, hne, hput⟩ := hen
        refine ⟨he1, hne, ?_⟩
        intro hp
        obtain ⟨it, enc, hit, henc, hbody⟩ := hput hp
        refine ⟨it, enc, hit, henc, hbody, ?_, ?_⟩
        · rw [hbody]
          exact alistGet_put_self en.2 "Item" enc
        · intro f hf
          rw [hbody]
          exact alistGet_put_ne en.2 "Item" f enc (fun hc => hf hc.symm)

/-- Witness for C3: in the concrete batch, the forwarded request keeps the
extra kwargs, the delete request is untouched and the put item is
encrypted — `fw0` is exactly what reaches the wire. -/
theorem batch_write_item_put_delete_witness :
    Event.remoteBatchWrite fw0 ∈
      (env0.batch_write_item h0 underlyingWrite0 encrypt0 kwWrite0).2.2 ∧
    fw0.other = kwWrite0.other :=
  ⟨by decide,
    (batch_write_item_put_delete env0 h0 underlyingWrite0 encrypt0 kwWrite0 fw0
      (by decide) (by decide)).1⟩

/-- C4: when the caller supplies `crypto_config`, both batch methods pop it
from the forwarded arguments (the remote payload is exactly the remaining
arguments), perform zero table-info cache lookups, and use exactly the
supplied configuration for every item of every table in the batch. -/
theorem override_bypasses_cache (env : EncryptedResource) (h : Heap)
    (validate : TableGetSpec → Except DynErr Unit)
    (underlying : BatchGetForward → BatchGetResponse)
    (underlyingW : BatchWriteForward → BatchWriteResponse)
    (decrypt : Item → CryptoConfig → Item)
    (encrypt : Item → CryptoConfig → Except DynErr Item)
    (kw : BatchGetKwargs) (kwW : BatchWriteKwargs) (cfg : CryptoConfig)
    (hkw : kw.crypto_config = some cfg) (hkwW : kwW.crypto_config = some cfg) :
    (∀ t, Event.cacheLookup t ∉
      (env.batch_get_item h validate underlying decrypt kw).2.2) ∧
    (∀ t, Event.cacheLookup t ∉
      (env.batch_write_item h underlyingW encrypt kwW).2.2) ∧
    (∀ fw, Event.remoteBatchGet fw ∈
        (env.batch_get_item h validate underlying decrypt kw).2.2 →
      fw = ⟨kw.RequestItems, kw.other⟩) ∧
    (∀ resp, (env.batch_get_item h validate underlying decrypt kw).1 = Except.ok resp →
      resp.Responses = (underlying ⟨kw.RequestItems, kw.other⟩).Responses.map
        (fun te => (te.1, te.2.map (fun it => decrypt it cfg)))) ∧
    (∀ fw, Event.remoteBatchWrite fw ∈
        (env.batch_write_item h underlyingW encrypt kwW).2.2 →
      fw.other = kwW.other ∧
      List.Forall₂ (fun te te2 => te2.1 = te.1 ∧
          transformTableWrites encrypt cfg te.2 = Except.ok te2.2)
        kwW.RequestItems fw.RequestItems) := by
  have hdec := decryptTables_override env decrypt cfg
    (underlying ⟨kw.RequestItems, kw.other⟩).Responses h
  have hwst := encryptTables_override_state env encrypt cfg kwW.RequestItems h
  refine ⟨?_, ?_, ?_, ?_, ?_⟩
  · intro t hmem
    cases hv : (validateAll validate kw.RequestItems).1 with
    | error e =>
        have h2 : (env.batch_get_item h validate underlying decrypt kw).2.2 =
            (validateAll validate kw.RequestItems).2 := by
          simp only [EncryptedResource.batch_get_item, hv]
        rw [h2] at hmem
        obtain ⟨n, hn⟩ := validateAll_events validate kw.RequestItems _ hmem
        cases hn
    | ok u =>
        cases u
        have h2 : (env.batch_get_item h validate underlying decrypt kw).2.2 =
            (validateAll validate kw.RequestItems).2 ++
              Event.remoteBatchGet ⟨kw.RequestItems, kw.other⟩ ::
                (decryptTables env decrypt kw.crypto_config h
                  (underlying ⟨kw.RequestItems, kw.other⟩).Responses).2.2 := by
          simp only [EncryptedResource.batch_get_item, hv]
        rw [h2, hkw, hdec] at hmem
        rcases List.mem_append.mp hmem with hmem | hmem
        · obtain ⟨n, hn⟩ := validateAll_events validate kw.RequestItems _ hmem
          cases hn
        · rcases List.mem_cons.mp hmem with hmem | hmem
          · cases hmem
          · cases hmem
  · intro t hmem
    cases hr : (encryptTables env encrypt kwW.crypto_config h kwW.RequestItems).1 with
    | error e =>
        have h2 : (env.batch_write_item h underlyingW encrypt kwW).2.2 =
            (encryptTables env encrypt kwW.crypto_config h kwW.RequestItems).2.2 := by
          simp only [EncryptedResource.batch_write_item, hr]
        rw [h2, hkwW] at hmem
        rw [show (encryptTables env encrypt (some cfg) h kwW.RequestItems).2.2 = []
          from congrArg Prod.snd hwst] at hmem
        cases hmem
    | ok items2 =>
        have h2 : (env.batch_write_item h underlyingW encrypt kwW).2.2 =
            (encryptTables env encrypt kwW.crypto_config h kwW.RequestItems).2.2 ++
              [Event.remoteBatchWrite ⟨items2, kwW.other⟩] := by
          simp only [EncryptedResource.batch_write_item, hr]
        rw [h2, hkwW] at hmem
        rw [show (encryptTables env encrypt (some cfg) h kwW.RequestItems).2.2 = []
          from congrArg Prod.snd hwst] at hmem
        rcases List.mem_append.mp hmem with hmem | hmem
        · cases hmem
        · cases List.mem_singleton.mp hmem
  · intro fw hmem
    cases hv : (validateAll validate kw.RequestItems).1 with
    | error e =>
        exfalso
        have h2 : (env.batch_get_item h validate underlying decrypt kw).2.2 =
            (validateAll validate kw.RequestItems).2 := by
          simp only [EncryptedResource.batch_get_item, hv]
        rw [h2] at hmem
        obtain ⟨n, hn⟩ := validateAll_events validate kw.RequestItems _ hmem
        cases hn
    | ok u =>
        cases u
        have h2 : (env.batch_get_item h validate underlying decrypt kw).2.2 =
            (validateAll validate kw.RequestItems).2 ++
              Event.remoteBatchGet ⟨kw.RequestItems, kw.other⟩ ::
                (decryptTables env decrypt kw.crypto_config h
                  (underlying ⟨kw.RequestItems, kw.other⟩).Responses).2.2 := by
          simp only [EncryptedResource.batch_get_item, hv]
        rw [h2, hkw, hdec] at hmem
        rcases List.mem_append.mp hmem with hmem | hmem
        · exfalso
          obtain ⟨n, hn⟩ := validateAll_events validate kw.RequestItems _ hmem
          cases hn
        · rcases List.mem_cons.mp hmem with hmem | hmem
          · injection hmem
          · cases hmem
  · intro resp hok
    unfold EncryptedResource.batch_get_item at hok
    dsimp only at hok
    cases hv : (validateAll validate kw.RequestItems).1 with
    | error e => rw [hv] at hok; simp at hok
    | ok u =>
        rw [hv] at hok
        dsimp only at hok
        rw [hkw] at hok
        rw [show (decryptTables env decrypt (some cfg) h
            (underlying ⟨kw.RequestItems, kw.other⟩).Responses).1 =
          Except.ok ((underlying ⟨kw.RequestItems, kw.other⟩).Responses.map
            (fun te => (te.1, te.2.map (fun it => decrypt it cfg))))
          from congrArg Prod.fst hdec] at hok
        simp only [Except.ok.injEq] at hok
        subst hok
        rfl
  · intro fw hmem
    cases hr : (encryptTables env encrypt kwW.crypto_config h kwW.RequestItems).1 with
    | error e =>
        exfalso
        have h2 : (env.batch_write_item h underlyingW encrypt kwW).2.2 =
            (encryptTables env encrypt kwW.crypto_config h kwW.RequestItems).2.2 := by
          simp only [EncryptedResource.batch_write_item, hr]
        rw [h2, hkwW] at hmem
        rw [show (encryptTables env encrypt (some cfg) h kwW.RequestItems).2.2 = []
          from congrArg Prod.snd hwst] at hmem
        cases hmem
    | ok items2 =>
        have h2 : (env.batch_write_item h underlyingW encrypt kwW).2.2 =
            (encryptTables env encrypt kwW.crypto_config h kwW.RequestItems).2.2 ++
              [Event.remoteBatchWrite ⟨items2, kwW.other⟩] := by
          simp only [EncryptedResource.batch_write_item, hr]
        rw [h2, hkwW] at hmem
        rw [show (encryptTables env encrypt (some cfg) h kwW.RequestItems).2.2 = []
          from congrArg Prod.snd hwst] at hmem
        have hfw2 : fw = ⟨items2, kwW.other⟩ := by
          have := List.mem_singleton.mp hmem
          injection this
        subst hfw2
        refine ⟨rfl, ?_⟩
        rw [hkwW] at hr
        exact encryptTables_override_ok env encrypt cfg kwW.RequestItems h items2 hr

/-- Witness for C4: with the override supplied, neither batch call logs a
cache lookup for either table, and the forwarded batch-get arguments are
exactly the caller's minus the popped `crypto_config`. -/
theorem override_bypasses_cache_witness :
    (Event.cacheLookup "Orders" ∉
      (env0.batch_get_item h0 validate0 underlyingGet0 decrypt0 kwGetOv).2.2) ∧
    (Event.cacheLookup "Orders" ∉
      (env0.batch_write_item h0 underlyingWrite0 encrypt0 kwWriteOv).2.2) ∧
    respDec0.Responses =
      (underlyingGet0 ⟨kwGetOv.RequestItems, kwGetOv.other⟩).Responses.map
        (fun te => (te.1, te.2.map (fun it => decrypt0 it cfgOverride))) :=
  ⟨(override_bypasses_cache env0 h0 validate0 underlyingGet0 underlyingWrite0
      decrypt0 encrypt0 kwGetOv kwWriteOv cfgOverride rfl rfl).1 "Orders",
    (override_bypasses_cache env0 h0 validate0 underlyingGet0 underlyingWrite0
      decrypt0 encrypt0 kwGetOv kwWriteOv cfgOverride rfl rfl).2.1 "Orders",
    (override_bypasses_cache env0 h0 validate0 underlyingGet0 underlyingWrite0
      decrypt0 encrypt0 kwGetOv kwWriteOv cfgOverride rfl rfl).2.2.2.1 respDec0
      (by decide)⟩
